import Mathlib

/-!
# Verification of the `MemStorage` data-access and analytics layer

Shallow embedding of `server/storage.ts` (class `MemStorage`) and the register
route of `server/routes.ts`.  JavaScript `Map` objects are modelled as
insertion-ordered lists (`Map` iteration order is insertion order), machine
numbers as `Nat`/`Int`/`ℚ`, `Date` values as epoch milliseconds (`Nat`),
generated UUIDs and clock reads as values drawn from a strictly increasing
counter (the spec only requires negligible collision probability), and bcrypt
digests as an explicit constructor that records the hashed plaintext and the
per-call salt, so that `bcrypt.compare` is verification of provenance.
-/

/-- ECMAScript `Math.round` on an exact rational: the nearest integer,
half-way cases rounded towards positive infinity. -/
def roundHalfUp (q : ℚ) : ℤ := ⌊q + 1 / 2⌋

/-- Integer form of `Math.round(a / b)` for integers `a`, `b` with `0 < b`, computed without
leaving `ℤ`: `⌊a / b + 1 / 2⌋ = ⌊(2a + b) / (2b)⌋`.  Used as the executable
form of the rounding in `getAnalytics`; `jsRoundDiv_eq_roundHalfUp` below
identifies it with `roundHalfUp`. -/
def jsRoundDiv (a b : ℤ) : ℤ := Int.fdiv (2 * a + b) (2 * b)

/-- JavaScript truthiness of an optional numeric field: `null`/`undefined`
and `0` are falsy. -/
def truthyInt : Option Int → Bool
  | none => false
  | some n => n != 0

/-- JavaScript truthiness of an optional string field: `null`/`undefined`
and the empty string are falsy. -/
def truthyStr : Option String → Bool
  | none => false
  | some s => s != ""

/-- A row of the `tool_usage` table (`shared/schema.ts`).  `id` is the
generated UUID (modelled as `Nat`), `timestamp` is epoch milliseconds. -/
structure ToolUsage where
  id : Nat
  toolName : String
  category : String
  userId : Option Nat
  sessionId : Option String
  timestamp : Nat
  processingTime : Option Int
  fileSize : Option Int
  success : Bool
deriving DecidableEq, Repr

/-- The optional filter object accepted by `MemStorage.getToolUsage`. -/
structure UsageFilters where
  toolName : Option String
  category : Option String
  dateFrom : Option Nat
  dateTo : Option Nat
deriving DecidableEq, Repr

/-- The filter cascade of `MemStorage.getToolUsage` (storage.ts:187-200):
each supplied field narrows the list, but the string fields are guarded by
JavaScript truthiness (`if (filters.toolName)`), so an empty string is
skipped; `Date` fields are objects and always truthy. -/
def applyFilters (fs : UsageFilters) (usages : List ToolUsage) : List ToolUsage :=
  let u1 := match fs.toolName with
    | some t => if t != "" then usages.filter (fun u => u.toolName == t) else usages
    | none => usages
  let u2 := match fs.category with
    | some c => if c != "" then u1.filter (fun u => u.category == c) else u1
    | none => u1
  let u3 := match fs.dateFrom with
    | some d => u2.filter (fun u => d ≤ u.timestamp)
    | none => u2
  match fs.dateTo with
  | some d => u3.filter (fun u => u.timestamp ≤ d)
  | none => u3

/-- Insert `x` into `l` in front of the first element whose key does not
exceed the key of `x`: one step of a stable descending sort. -/
def insertDescBy {α : Type} (f : α → Nat) (x : α) : List α → List α
  | [] => [x]
  | y :: ys => if f y ≤ f x then x :: y :: ys else y :: insertDescBy f x ys

/-- Stable sort in descending key order; models the ECMAScript
`Array.prototype.sort` with comparator `(a, b) => f(b) - f(a)` (the
ECMAScript sort is required to be stable, which determines the result). -/
def sortDescBy {α : Type} (f : α → Nat) : List α → List α
  | [] => []
  | x :: xs => insertDescBy f x (sortDescBy f xs)

/-- Model of `MemStorage.getToolUsage` (storage.ts:179-203) on the insertion-ordered
value list of `this.toolUsages`: apply the filters, then sort by timestamp
descending. -/
def getToolUsage (usages : List ToolUsage) (filters : Option UsageFilters) : List ToolUsage :=
  sortDescBy (fun u => u.timestamp)
    (match filters with
     | some fs => applyFilters fs usages
     | none => usages)

/-- The accumulator record of `toolStatsMap` in `MemStorage.getAnalytics`
(storage.ts:278-284). -/
structure ToolStatAcc where
  name : String
  category : String
  usageCount : Nat
  successCount : Nat
  totalProcessingTime : Int
deriving DecidableEq, Repr

/-- The body of the `usages.forEach` loop applied to one accumulator
(storage.ts:296-298): count the event, count its success, and add its
processing time when that field is truthy. -/
def accStep (a : ToolStatAcc) (u : ToolUsage) : ToolStatAcc :=
  { a with
    usageCount := a.usageCount + 1
    successCount := if u.success then a.successCount + 1 else a.successCount
    totalProcessingTime :=
      if truthyInt u.processingTime then a.totalProcessingTime + u.processingTime.getD 0
      else a.totalProcessingTime }

/-- The default accumulator created at the first occurrence of a tool name
(storage.ts:288-294). -/
def accInit (u : ToolUsage) : ToolStatAcc :=
  { name := u.toolName, category := u.category
    usageCount := 0, successCount := 0, totalProcessingTime := 0 }

/-- One iteration of the `forEach` over the insertion-ordered map: update the
existing entry for the tool name of the event in place, or append a fresh one. -/
def addUsage : List ToolStatAcc → ToolUsage → List ToolStatAcc
  | [], u => [accStep (accInit u) u]
  | a :: rest, u =>
      if a.name = u.toolName then accStep a u :: rest
      else a :: addUsage rest u

/-- The grouping pass of `MemStorage.getAnalytics` (storage.ts:286-301). -/
def buildStats (usages : List ToolUsage) : List ToolStatAcc :=
  usages.foldl addUsage []

/-- One entry of the `toolStats` array returned by `getAnalytics`. -/
structure ToolStat where
  name : String
  category : String
  usageCount : Nat
  successRate : Int
  avgProcessingTime : Int
deriving DecidableEq, Repr

/-- The `.map` of storage.ts:304-310: derive the per-tool percentages.
`successRate = Math.round((successCount / usageCount) * 100)` and
`avgProcessingTime = Math.round(totalProcessingTime / usageCount)`, both
guarded by `usageCount > 0`. -/
def finalizeStat (a : ToolStatAcc) : ToolStat :=
  { name := a.name
    category := a.category
    usageCount := a.usageCount
    successRate :=
      if 0 < a.usageCount then jsRoundDiv ((a.successCount : ℤ) * 100) (a.usageCount : ℤ) else 0
    avgProcessingTime :=
      if 0 < a.usageCount then jsRoundDiv a.totalProcessingTime (a.usageCount : ℤ) else 0 }

/-- Model of `((succ / total) * 100).toFixed(1) + "%"`: one decimal digit, rounding to
the nearest multiple of 0.1 with ties towards the larger value (ECMAScript
`toFixed`), rendered as a percentage string. -/
def toFixed1Pct (succ total : Nat) : String :=
  let m : Int := jsRoundDiv ((succ : ℤ) * 1000) (total : ℤ)
  toString (m / 10) ++ "." ++ toString (m % 10) ++ "%"

/-- The global success-rate string of storage.ts:275, including its
`totalUsage > 0` guard. -/
def globalSuccessRate (succ total : Nat) : String :=
  if 0 < total then toFixed1Pct succ total else "0%"

/-- The record returned by `MemStorage.getAnalytics`. -/
structure AnalyticsResult where
  totalUsage : Nat
  mostPopular : String
  popularUsage : Nat
  successRate : String
  toolStats : List ToolStat
deriving DecidableEq, Repr

/-- Model of `MemStorage.getAnalytics` (storage.ts:245-325) on the insertion-ordered
value list of `this.toolUsages`. -/
def getAnalytics (usages : List ToolUsage) : AnalyticsResult :=
  if usages.length = 0 then
    { totalUsage := 0, mostPopular := "No data", popularUsage := 0
      successRate := "0%", toolStats := [] }
  else
    let totalUsage := usages.length
    let successfulUsages := (usages.filter (fun u => u.success)).length
    let successRate := globalSuccessRate successfulUsages totalUsage
    let toolStats := sortDescBy (fun s => s.usageCount) ((buildStats usages).map finalizeStat)
    match toolStats with
    | [] =>
        { totalUsage, mostPopular := "No data", popularUsage := 0, successRate, toolStats }
    | s :: _ =>
        { totalUsage, mostPopular := s.name, popularUsage := s.usageCount, successRate, toolStats }

/-! ## Specification-side characterisation of the analytics aggregation -/

/-- The events of one tool group: all events whose `toolName` is `name`. -/
def eventsFor (usages : List ToolUsage) (name : String) : List ToolUsage :=
  usages.filter (fun u => u.toolName == name)

/-- What one event adds to `totalProcessingTime`: its processing time when
that field is truthy, else nothing. -/
def ptContribution (u : ToolUsage) : Int :=
  if truthyInt u.processingTime then u.processingTime.getD 0 else 0

/-- The distinct tool names of the collection, in order of first occurrence
(the iteration order of the `toolStatsMap`). -/
def toolNamesInOrder : List ToolUsage → List String
  | [] => []
  | u :: rest => u.toolName :: (toolNamesInOrder rest).filter (fun n => n != u.toolName)

/-- The accumulator a tool group should end with, stated directly by
filtering: group size, success count, summed truthy processing times, and
the category of the first event of the group. -/
def accOf (usages : List ToolUsage) (name : String) : ToolStatAcc :=
  { name := name
    category := (((eventsFor usages name).head?).map (fun u => u.category)).getD ""
    usageCount := (eventsFor usages name).length
    successCount := ((eventsFor usages name).filter (fun u => u.success)).length
    totalProcessingTime := ((eventsFor usages name).map ptContribution).sum }

/-- The per-tool statistics in first-occurrence order, before the
usage-count sort. -/
def preToolStats (usages : List ToolUsage) : List ToolStat :=
  ((toolNamesInOrder usages).map (accOf usages)).map finalizeStat

/-- The conjunction of the supplied filters, read as the specification
words them: a supplied field constrains, an absent field does not. -/
def matchesSpec (fs : UsageFilters) (u : ToolUsage) : Bool :=
  (match fs.toolName with | some t => u.toolName == t | none => true) &&
  (match fs.category with | some c => u.category == c | none => true) &&
  (match fs.dateFrom with | some d => d ≤ u.timestamp | none => true) &&
  (match fs.dateTo with | some d => u.timestamp ≤ d | none => true)

/-! ## Ad slots -/

/-- A row of the `ad_slots` table; `settings` is an open-ended JSON blob,
modelled as its serialised text. -/
structure AdSlot where
  id : Nat
  name : String
  position : String
  page : String
  isActive : Bool
  adProvider : Option String
  adCode : Option String
  settings : Option String
  createdAt : Nat
deriving DecidableEq, Repr

/-- Model of `MemStorage.getActiveAdSlots` (storage.ts:210-213) on the
insertion-ordered value list of `this.adSlots`. -/
def getActiveAdSlots (slots : List AdSlot) (page : String) : List AdSlot :=
  slots.filter (fun s => s.page == page && s.isActive)

/-! ## Users, hashing and authentication -/

/-- A value held by a `password` column.  `bcrypt.hash` produces
`hashed p salt` (the digest determines the plaintext it was derived from and
the per-call random salt); a caller writing a raw string through the generic
update path stores `plain s`. -/
inductive StoredPassword where
  | hashed (plaintext : String) (salt : Nat)
  | plain (text : String)
deriving DecidableEq, Repr

/-- Model of `bcrypt.hash(plaintext, 10)` with the given fresh salt. -/
def bcryptHash (plaintext : String) (salt : Nat) : StoredPassword :=
  .hashed plaintext salt

/-- Model of `bcrypt.compare(candidate, stored)`: true iff `stored` is a digest that
was produced from `candidate` (comparing against a non-digest string fails). -/
def bcryptCompare (candidate : String) (stored : StoredPassword) : Bool :=
  match stored with
  | .hashed p _ => candidate == p
  | .plain _ => false

/-- Whether a stored password is a digest rather than plaintext. -/
def isHashedPw : StoredPassword → Bool
  | .hashed _ _ => true
  | .plain _ => false

/-- A row of the `users` table. -/
structure User where
  id : Nat
  username : String
  email : String
  password : StoredPassword
  role : String
  createdAt : Nat
  updatedAt : Nat
deriving DecidableEq, Repr

/-- The `InsertUser` payload: `insertUserSchema` omits id and the
timestamps; `role` is optional (defaulted by `createUser`). -/
structure InsertUser where
  username : String
  email : String
  password : String
  role : Option String
deriving DecidableEq, Repr

/-- The `users` JavaScript `Map`, as an insertion-ordered association list
from generated id to record. -/
abbrev UserMap := List (Nat × User)

/-- Model of `Map.prototype.get`. -/
def mapGet (m : UserMap) (k : Nat) : Option User :=
  (m.find? (fun e => e.fst == k)).map (fun e => e.snd)

/-- Model of `Map.prototype.set`: replace in place when the key exists, else append. -/
def mapSet (m : UserMap) (k : Nat) (v : User) : UserMap :=
  if m.any (fun e => e.fst == k) then
    m.map (fun e => if e.fst == k then (k, v) else e)
  else m ++ [(k, v)]

/-- Model of `MemStorage.getUserByEmail` (storage.ts:119-121): first stored user
with the given email, in insertion order. -/
def getUserByEmail (m : UserMap) (email : String) : Option User :=
  (m.map (fun e => e.snd)).find? (fun u => u.email == email)

/-- The mutable state of the user portion of `MemStorage`, together with
the fresh-value source that stands for `randomUUID()`, the bcrypt salt
generator and the clock (storage.ts generates these effectfully; collisions
have negligible probability, so a strictly increasing counter models them). -/
structure StoreState where
  users : UserMap
  fresh : Nat
deriving DecidableEq, Repr

/-- Model of `MemStorage.createUser` (storage.ts:127-142): generate an id, hash the
plaintext password, default the role (`insertUser.role || "user"`, so an
empty string also defaults), stamp both timestamps, store, and return the
new record.  Note: no duplicate-email or duplicate-username check is made. -/
def createUser (st : StoreState) (input : InsertUser) : StoreState × User :=
  let user : User :=
    { id := st.fresh
      username := input.username
      email := input.email
      password := bcryptHash input.password st.fresh
      role := match input.role with
        | some r => if r != "" then r else "user"
        | none => "user"
      createdAt := st.fresh
      updatedAt := st.fresh }
  ({ users := mapSet st.users st.fresh user, fresh := st.fresh + 1 }, user)

/-- A `Partial<User>` update object.  Every column may be supplied;
`updatedAt` is listed for shape-faithfulness but has no effect because
`updateUser` writes `updatedAt: new Date()` after the spread. -/
structure UserUpdates where
  id : Option Nat
  username : Option String
  email : Option String
  password : Option StoredPassword
  role : Option String
  createdAt : Option Nat
  updatedAt : Option Nat
deriving DecidableEq, Repr

/-- Model of `MemStorage.updateUser` (storage.ts:144-156): look up by id, spread the
updates over the record (every supplied field wins, including a raw
password), re-stamp `updatedAt`, store under the same key. -/
def updateUser (st : StoreState) (k : Nat) (up : UserUpdates) :
    StoreState × Option User :=
  match mapGet st.users k with
  | none => (st, none)
  | some user =>
      let updated : User :=
        { id := up.id.getD user.id
          username := up.username.getD user.username
          email := up.email.getD user.email
          password := up.password.getD user.password
          role := up.role.getD user.role
          createdAt := up.createdAt.getD user.createdAt
          updatedAt := st.fresh }
      ({ users := mapSet st.users k updated, fresh := st.fresh + 1 }, some updated)

/-- Model of `MemStorage.authenticateUser` (storage.ts:158-164): look up by email,
then verify the candidate password against the stored digest. -/
def authenticateUser (st : StoreState) (email password : String) : Option User :=
  match getUserByEmail st.users email with
  | none => none
  | some user => if bcryptCompare password user.password then some user else none

/-- Outcome of the register route. -/
inductive RegisterResult where
  | duplicate
  | created (u : User)
deriving DecidableEq, Repr

/-- The `POST /api/auth/register` handler (routes.ts:9-29): reject with 409
when `getUserByEmail` already finds the email, else call `createUser` with
only username, email and password. -/
def registerRoute (st : StoreState) (username email password : String) :
    StoreState × RegisterResult :=
  match getUserByEmail st.users email with
  | some _ => (st, .duplicate)
  | none =>
      let r := createUser st { username := username, email := email
                               password := password, role := none }
      (r.fst, .created r.snd)

/-- One call into the user portion of the store. -/
inductive UserOp where
  | create (input : InsertUser)
  | update (k : Nat) (up : UserUpdates)
deriving DecidableEq, Repr

/-- Run one operation, keeping only the state. -/
def runOp (st : StoreState) : UserOp → StoreState
  | .create input => (createUser st input).fst
  | .update k up => (updateUser st k up).fst

/-- Run a sequence of user operations. -/
def runOps (st : StoreState) (ops : List UserOp) : StoreState :=
  ops.foldl runOp st

/-! ## Basic lemmas -/

theorem jsRoundDiv_eq_roundHalfUp (a b : ℤ) (hb : 0 < b) :
    jsRoundDiv a b = roundHalfUp ((a : ℚ) / (b : ℚ)) := by
  have hb2 : (0 : ℤ) < 2 * b := by omega
  have hbq : ((b : ℚ)) ≠ 0 := by exact_mod_cast hb.ne'
  have h1 : (a : ℚ) / (b : ℚ) + 1 / 2 = ((2 * a + b : ℤ) : ℚ) / ((2 * b : ℤ) : ℚ) := by
    push_cast
    field_simp
    ring
  have hq : (((2 * b).toNat : ℤ)) = 2 * b := Int.toNat_of_nonneg hb2.le
  have hcast : ((2 * b : ℤ) : ℚ) = (((2 * b).toNat : ℕ) : ℚ) := by exact_mod_cast hq.symm
  rw [roundHalfUp, h1, hcast, Rat.floor_intCast_div_natCast, hq, jsRoundDiv,
    Int.fdiv_eq_ediv _ hb2.le]

theorem insertDescBy_perm {α : Type} (f : α → Nat) (x : α) (l : List α) :
    List.Perm (insertDescBy f x l) (x :: l) := by
  induction l with
  | nil => rfl
  | cons y ys ih =>
      rw [insertDescBy]
      split
      · rfl
      · exact (ih.cons y).trans (List.Perm.swap x y ys)

theorem sortDescBy_perm {α : Type} (f : α → Nat) (l : List α) :
    List.Perm (sortDescBy f l) l := by
  induction l with
  | nil => rfl
  | cons x xs ih => exact (insertDescBy_perm f x (sortDescBy f xs)).trans (ih.cons x)

theorem insertDescBy_pairwise {α : Type} (f : α → Nat) (x : α) (l : List α)
    (h : l.Pairwise (fun a b => f b ≤ f a)) :
    (insertDescBy f x l).Pairwise (fun a b => f b ≤ f a) := by
  induction l with
  | nil => simp [insertDescBy]
  | cons y ys ih =>
      rw [insertDescBy]
      rcases List.pairwise_cons.mp h with ⟨hy, hys⟩
      by_cases hxy : f y ≤ f x
      · rw [if_pos hxy]
        refine List.pairwise_cons.mpr ⟨?_, h⟩
        intro b hb
        rcases List.mem_cons.mp hb with rfl | hb
        · exact hxy
        · exact (hy b hb).trans hxy
      · rw [if_neg hxy]
        refine List.pairwise_cons.mpr ⟨?_, ih hys⟩
        intro b hb
        have hb' : b = x ∨ b ∈ ys := by
          simpa using (insertDescBy_perm f x ys).mem_iff.mp hb
        rcases hb' with rfl | hb'
        · exact le_of_not_le hxy
        · exact hy b hb'

theorem sortDescBy_pairwise {α : Type} (f : α → Nat) (l : List α) :
    (sortDescBy f l).Pairwise (fun a b => f b ≤ f a) := by
  induction l with
  | nil => simp [sortDescBy]
  | cons x xs ih => exact insertDescBy_pairwise f x _ ih

theorem insertDescBy_filter_key {α : Type} (f : α → Nat) (x : α) (l : List α) (c : Nat) :
    (insertDescBy f x l).filter (fun a => f a == c) =
      if f x == c then x :: l.filter (fun a => f a == c)
      else l.filter (fun a => f a == c) := by
  induction l with
  | nil => by_cases hx : f x = c <;> simp [insertDescBy, hx]
  | cons y ys ih =>
      rw [insertDescBy]
      by_cases hxy : f y ≤ f x
      · rw [if_pos hxy]
        by_cases hx : f x = c <;> simp [hx, List.filter_cons]
      · rw [if_neg hxy, List.filter_cons, ih]
        by_cases hx : f x = c
        · have hy : ¬ f y = c := by omega
          simp [hx, hy, List.filter_cons]
        · simp [hx, List.filter_cons]

theorem sortDescBy_filter_key {α : Type} (f : α → Nat) (l : List α) (c : Nat) :
    (sortDescBy f l).filter (fun a => f a == c) = l.filter (fun a => f a == c) := by
  induction l with
  | nil => rfl
  | cons x xs ih =>
      rw [sortDescBy, insertDescBy_filter_key, List.filter_cons]
      by_cases hx : f x = c <;> simp [hx, ih]

theorem applyFilters_eq_filter (fs : UsageFilters) (l : List ToolUsage)
    (ht : fs.toolName ≠ some "") (hc : fs.category ≠ some "") :
    applyFilters fs l = l.filter (matchesSpec fs) := by
  obtain ⟨tn, cat, df, dt⟩ := fs
  simp only [ne_eq, Option.some.injEq] at ht hc
  unfold applyFilters matchesSpec
  cases tn with
  | none =>
      cases cat with
      | none =>
          cases df <;> cases dt <;>
            simp [List.filter_filter] <;>
            exact List.filter_congr (fun u hu => by simp [Bool.and_comm])
      | some c =>
          have hc' : (c != "") = true := bne_iff_ne.mpr (fun h => hc (by rw [h]))
          cases df <;> cases dt <;>
            simp [hc', List.filter_filter] <;>
            exact List.filter_congr (fun u hu => by
              cases h1 : (u.category == c) <;> simp [Bool.and_comm])
  | some t =>
      have ht' : (t != "") = true := bne_iff_ne.mpr (fun h => ht (by rw [h]))
      cases cat with
      | none =>
          cases df <;> cases dt <;>
            simp [ht', List.filter_filter] <;>
            exact List.filter_congr (fun u hu => by
              cases h1 : (u.toolName == t) <;> simp [Bool.and_comm])
      | some c =>
          have hc' : (c != "") = true := bne_iff_ne.mpr (fun h => hc (by rw [h]))
          cases df <;> cases dt <;>
            simp [ht', hc', List.filter_filter] <;>
            exact List.filter_congr (fun u hu => by
              cases h1 : (u.toolName == t) <;> cases h2 : (u.category == c) <;>
                simp [Bool.and_comm])

theorem getToolUsage_empty_string_like_absent (l : List ToolUsage) (fs : UsageFilters) :
    getToolUsage l (some { fs with toolName := some "" }) =
      getToolUsage l (some { fs with toolName := none })
    ∧ getToolUsage l (some { fs with category := some "" }) =
      getToolUsage l (some { fs with category := none }) := by
  obtain ⟨tn, cat, df, dt⟩ := fs
  exact ⟨by simp [getToolUsage, applyFilters], by simp [getToolUsage, applyFilters]⟩

/-! ## Characterisation of the grouping pass -/

theorem eventsFor_append (l l' : List ToolUsage) (X : String) :
    eventsFor (l ++ l') X = eventsFor l X ++ eventsFor l' X := by
  simp [eventsFor]

theorem mem_toolNamesInOrder (l : List ToolUsage) (X : String) :
    X ∈ toolNamesInOrder l ↔ ∃ u ∈ l, u.toolName = X := by
  induction l with
  | nil => simp [toolNamesInOrder]
  | cons u rest ih =>
      rw [toolNamesInOrder]
      simp only [List.mem_cons, List.mem_filter, bne_iff_ne, ne_eq, ih]
      constructor
      · rintro (rfl | ⟨⟨v, hv, rfl⟩, -⟩)
        · exact ⟨u, Or.inl rfl, rfl⟩
        · exact ⟨v, Or.inr hv, rfl⟩
      · rintro ⟨v, rfl | hv, rfl⟩
        · exact Or.inl rfl
        · by_cases hX : v.toolName = u.toolName
          · exact Or.inl hX
          · exact Or.inr ⟨⟨v, hv, rfl⟩, hX⟩

theorem eventsFor_ne_nil_iff (l : List ToolUsage) (X : String) :
    eventsFor l X ≠ [] ↔ X ∈ toolNamesInOrder l := by
  rw [mem_toolNamesInOrder]
  constructor
  · intro h
    obtain ⟨u, hu⟩ := List.exists_mem_of_ne_nil _ h
    exact ⟨u, (List.mem_filter.mp hu).1, by simpa using (List.mem_filter.mp hu).2⟩
  · rintro ⟨u, hu, rfl⟩
    intro hemp
    have hm : u ∈ eventsFor l u.toolName := List.mem_filter.mpr ⟨hu, by simp⟩
    simp [hemp] at hm

theorem toolNamesInOrder_nodup (l : List ToolUsage) : (toolNamesInOrder l).Nodup := by
  induction l with
  | nil => simp [toolNamesInOrder]
  | cons u rest ih =>
      rw [toolNamesInOrder, List.nodup_cons]
      refine ⟨?_, ih.filter _⟩
      intro hmem
      have hne := (List.mem_filter.mp hmem).2
      simp at hne

theorem toolNamesInOrder_append (l : List ToolUsage) (u : ToolUsage) :
    toolNamesInOrder (l ++ [u]) =
      if u.toolName ∈ toolNamesInOrder l then toolNamesInOrder l
      else toolNamesInOrder l ++ [u.toolName] := by
  induction l with
  | nil => simp [toolNamesInOrder]
  | cons v rest ih =>
      have h0 : toolNamesInOrder ((v :: rest) ++ [u])
          = v.toolName :: (toolNamesInOrder (rest ++ [u])).filter
              (fun n => n != v.toolName) := rfl
      rw [h0, ih]
      simp only [toolNamesInOrder]
      by_cases h2 : u.toolName = v.toolName
      · have hcond : u.toolName ∈ v.toolName :: (toolNamesInOrder rest).filter
            (fun n => n != v.toolName) := by
          rw [h2]
          exact List.mem_cons_self _ _
        rw [if_pos hcond]
        by_cases h1 : u.toolName ∈ toolNamesInOrder rest
        · rw [if_pos h1]
        · rw [if_neg h1, List.filter_append]
          simp [h2]
      · have hne : (u.toolName != v.toolName) = true := bne_iff_ne.mpr h2
        by_cases h1 : u.toolName ∈ toolNamesInOrder rest
        · have hcond : u.toolName ∈ v.toolName :: (toolNamesInOrder rest).filter
              (fun n => n != v.toolName) :=
            List.mem_cons_of_mem _ (List.mem_filter.mpr ⟨h1, hne⟩)
          rw [if_pos h1, if_pos hcond]
        · have hcond : u.toolName ∉ v.toolName :: (toolNamesInOrder rest).filter
              (fun n => n != v.toolName) := by
            simp only [List.mem_cons, List.mem_filter]
            rintro (h | ⟨hm, _⟩)
            · exact h2 h
            · exact h1 hm
          rw [if_neg h1, if_neg hcond, List.filter_append]
          simp [hne]

theorem accOf_append_ne (l : List ToolUsage) (u : ToolUsage) (X : String)
    (h : u.toolName ≠ X) : accOf (l ++ [u]) X = accOf l X := by
  have he : eventsFor [u] X = [] := by simp [eventsFor, h]
  unfold accOf
  rw [eventsFor_append, he, List.append_nil]

theorem accOf_append_self (l : List ToolUsage) (u : ToolUsage)
    (h : eventsFor l u.toolName ≠ []) :
    accOf (l ++ [u]) u.toolName = accStep (accOf l u.toolName) u := by
  have he : eventsFor [u] u.toolName = [u] := by simp [eventsFor]
  unfold accOf accStep
  rw [eventsFor_append, he]
  simp only [ToolStatAcc.mk.injEq]
  obtain ⟨e, ev, hev⟩ := List.exists_cons_of_ne_nil h
  refine ⟨trivial, by simp [hev], by simp, ?_, ?_⟩
  · rw [List.filter_append]
    by_cases hs : u.success <;> simp [hs]
  · rw [List.map_append, List.sum_append]
    by_cases hpt : truthyInt u.processingTime <;> simp [ptContribution, hpt]

theorem accOf_append_new (l : List ToolUsage) (u : ToolUsage)
    (h : eventsFor l u.toolName = []) :
    accOf (l ++ [u]) u.toolName = accStep (accInit u) u := by
  have he : eventsFor [u] u.toolName = [u] := by simp [eventsFor]
  unfold accOf accStep accInit
  rw [eventsFor_append, h, he, List.nil_append]
  by_cases hs : u.success <;> by_cases hpt : truthyInt u.processingTime <;>
    simp [ptContribution, hs, hpt]

theorem addUsage_of_not_mem (acc : List ToolStatAcc) (u : ToolUsage)
    (h : ∀ a ∈ acc, a.name ≠ u.toolName) :
    addUsage acc u = acc ++ [accStep (accInit u) u] := by
  induction acc with
  | nil => rfl
  | cons a rest ih =>
      rw [addUsage, if_neg (h a (List.mem_cons_self a rest)),
        ih (fun b hb => h b (List.mem_cons_of_mem a hb))]
      rfl

theorem addUsage_map (ks : List String) (g : String → ToolStatAcc) (u : ToolUsage)
    (hg : ∀ k, (g k).name = k) (hnd : ks.Nodup) (hmem : u.toolName ∈ ks) :
    addUsage (ks.map g) u =
      ks.map (fun k => if k = u.toolName then accStep (g k) u else g k) := by
  induction ks with
  | nil => cases hmem
  | cons k rest ih =>
      rw [List.map_cons, List.map_cons, addUsage, hg k]
      by_cases hk : k = u.toolName
      · rw [if_pos hk, if_pos hk]
        congr 1
        have hnr : u.toolName ∉ rest := by
          subst hk
          exact (List.nodup_cons.mp hnd).1
        symm
        apply List.map_congr_left
        intro j hj
        rw [if_neg (fun hj' => hnr (by rw [← hj']; exact hj))]
      · rw [if_neg hk, if_neg hk]
        have hmem' : u.toolName ∈ rest := by
          rcases List.mem_cons.mp hmem with h | h
          · exact absurd h.symm hk
          · exact h
        rw [ih (List.nodup_cons.mp hnd).2 hmem']

theorem buildStats_append (l : List ToolUsage) (u : ToolUsage) :
    buildStats (l ++ [u]) = addUsage (buildStats l) u := by
  unfold buildStats
  rw [List.foldl_append]
  rfl

/-- The grouping pass, characterised: `buildStats` produces, in
first-occurrence order of the tool names, the accumulator that the
specification describes by filtering the whole collection. -/
theorem buildStats_eq (l : List ToolUsage) :
    buildStats l = (toolNamesInOrder l).map (accOf l) := by
  induction l using List.reverseRecOn with
  | nil => rfl
  | append_singleton l u ih =>
      rw [buildStats_append, ih, toolNamesInOrder_append]
      by_cases hmem : u.toolName ∈ toolNamesInOrder l
      · rw [if_pos hmem,
          addUsage_map _ _ _ (fun k => rfl) (toolNamesInOrder_nodup l) hmem]
        apply List.map_congr_left
        intro k hk
        by_cases hk' : k = u.toolName
        · subst hk'
          rw [if_pos rfl, accOf_append_self l u ((eventsFor_ne_nil_iff l _).mpr hmem)]
        · rw [if_neg hk', accOf_append_ne l u k (fun h => hk' h.symm)]
      · rw [if_neg hmem, List.map_append,
          addUsage_of_not_mem _ _ (fun a ha => by
            obtain ⟨k, hk, rfl⟩ := List.mem_map.mp ha
            exact fun h => hmem (h ▸ hk))]
        congr 1
        · apply List.map_congr_left
          intro k hk
          exact (accOf_append_ne l u k (fun h => hmem (h ▸ hk))).symm
        · rw [List.map_singleton,
            accOf_append_new l u (by
              by_contra hne
              exact hmem ((eventsFor_ne_nil_iff l _).mp hne))]

theorem preToolStats_eq (l : List ToolUsage) :
    (buildStats l).map finalizeStat = preToolStats l := by
  rw [buildStats_eq]
  rfl

theorem getAnalytics_toolStats (l : List ToolUsage) (h : l ≠ []) :
    (getAnalytics l).toolStats = sortDescBy (fun s => s.usageCount) (preToolStats l) := by
  have hlen : ¬(l.length = 0) := by simpa using h
  simp only [getAnalytics, if_neg hlen]
  rw [preToolStats_eq]
  cases hts : sortDescBy (fun s => s.usageCount) (preToolStats l) with
  | nil => simp [hts]
  | cons s rest => simp [hts]

theorem getAnalytics_head (l : List ToolUsage) (h : l ≠ []) :
    ∃ s rest, (getAnalytics l).toolStats = s :: rest ∧
      (getAnalytics l).mostPopular = s.name ∧
      (getAnalytics l).popularUsage = s.usageCount := by
  have hlen : ¬(l.length = 0) := by simpa using h
  simp only [getAnalytics, if_neg hlen]
  rw [preToolStats_eq]
  cases hts : sortDescBy (fun s => s.usageCount) (preToolStats l) with
  | nil =>
      exfalso
      have hperm := sortDescBy_perm (fun s => s.usageCount) (preToolStats l)
      rw [hts] at hperm
      have hemp : preToolStats l = [] := hperm.symm.eq_nil
      cases l with
      | nil => exact h rfl
      | cons a as => simp [preToolStats, toolNamesInOrder] at hemp
  | cons s rest => exact ⟨s, rest, by simp [hts], by simp [hts], by simp [hts]⟩

theorem mem_getAnalytics_toolStats (l : List ToolUsage) (h : l ≠ []) (s : ToolStat) :
    s ∈ (getAnalytics l).toolStats ↔
      ∃ X ∈ toolNamesInOrder l, s = finalizeStat (accOf l X) := by
  rw [getAnalytics_toolStats l h, (sortDescBy_perm _ _).mem_iff]
  simp [preToolStats, eq_comm]

/-! ## Claim theorems: analytics -/

/-- A concrete tool-usage event, for witnesses and counterexamples. -/
def exEvent (n : Nat) (tool cat : String) (ts : Nat) (pt : Option Int) (ok : Bool) :
    ToolUsage :=
  { id := n, toolName := tool, category := cat, userId := none, sessionId := none
    timestamp := ts, processingTime := pt, fileSize := none, success := ok }

/-- The specification reading of the per-tool average: the rounded mean of
`processingTime` over only the events that carry that field, the others
excluded from both the sum and the divisor. -/
def specAvgProcessingTime (l : List ToolUsage) (X : String) : ℤ :=
  roundHalfUp
    ((((((eventsFor l X).filter (fun u => u.processingTime.isSome)).map
        (fun u => u.processingTime.getD 0)).sum : ℤ) : ℚ) /
      ((((eventsFor l X).filter (fun u => u.processingTime.isSome)).length : ℕ) : ℚ))

/-- Four `pdf-to-word` events, three carrying `processingTime` 100: the
example group for the average from the specification. -/
def c1Events : List ToolUsage :=
  [ exEvent 0 "pdf-to-word" "pdf" 0 (some 100) true
  , exEvent 1 "pdf-to-word" "pdf" 1 (some 100) true
  , exEvent 2 "pdf-to-word" "pdf" 2 (some 100) true
  , exEvent 3 "pdf-to-word" "pdf" 3 none false ]

/-- C1, counterexample: on the example scenario of the specification the code returns
`avgProcessingTime = 75` (it divides the sum 300 by the full group size 4),
while the mean over only the events that carry `processingTime` is 100. -/
theorem C1_counterexample :
    ((getAnalytics c1Events).toolStats.map (fun s => (s.name, s.avgProcessingTime)))
      = [("pdf-to-word", 75)]
    ∧ specAvgProcessingTime c1Events "pdf-to-word" = 100
    ∧ (75 : ℤ) ≠ 100 := by
  refine ⟨by decide, ?_, by decide⟩
  have h1 : ((((eventsFor c1Events "pdf-to-word").filter
      (fun u => u.processingTime.isSome)).map (fun u => u.processingTime.getD 0)).sum : ℤ)
      = 300 := by decide
  have h2 : (((eventsFor c1Events "pdf-to-word").filter
      (fun u => u.processingTime.isSome)).length : ℕ) = 3 := by decide
  rw [specAvgProcessingTime, h1, h2]
  norm_num [roundHalfUp]

/-- C1, amended: the `avgProcessingTime` of each tool group is the rounded mean
over the full group event count: absent (or zero) processing times are
excluded from the sum but still counted in the divisor. -/
theorem C1_amended_avgProcessingTime (l : List ToolUsage) (s : ToolStat)
    (hs : s ∈ (getAnalytics l).toolStats) :
    s.avgProcessingTime =
      roundHalfUp ((((eventsFor l s.name).map ptContribution).sum : ℚ) /
        (((eventsFor l s.name).length : ℕ) : ℚ)) := by
  have hne : l ≠ [] := by
    rintro rfl
    simp [getAnalytics] at hs
  obtain ⟨X, hX, rfl⟩ := (mem_getAnalytics_toolStats l hne s).mp hs
  have hlen : 0 < (eventsFor l X).length :=
    List.length_pos.mpr ((eventsFor_ne_nil_iff l X).mpr hX)
  show (finalizeStat (accOf l X)).avgProcessingTime = _
  simp only [finalizeStat, accOf]
  rw [if_pos hlen, jsRoundDiv_eq_roundHalfUp _ _ (by exact_mod_cast hlen)]
  congr 1
  try push_cast
  try ring

/-- The single stat entry that `getAnalytics` produces on `c1Events`. -/
def c1Stat : ToolStat :=
  { name := "pdf-to-word", category := "pdf", usageCount := 4
    successRate := 75, avgProcessingTime := 75 }

/-- C1 amended, witness at the example group. -/
theorem C1_amended_avgProcessingTime_witness :
    c1Stat ∈ (getAnalytics c1Events).toolStats ∧
    c1Stat.avgProcessingTime =
      roundHalfUp ((((eventsFor c1Events c1Stat.name).map ptContribution).sum : ℚ) /
        (((eventsFor c1Events c1Stat.name).length : ℕ) : ℚ)) :=
  ⟨by decide, C1_amended_avgProcessingTime c1Events c1Stat (by decide)⟩

/-- C6: a tool with `N` events of which `S` succeeded appears in
`toolStats` with `usageCount = N` and `successRate = round(100*S/N)`. -/
theorem C6_usage_and_successRate (l : List ToolUsage) (X : String)
    (h : 0 < (eventsFor l X).length) :
    ∃ s ∈ (getAnalytics l).toolStats, s.name = X ∧
      s.usageCount = (eventsFor l X).length ∧
      s.successRate =
        roundHalfUp (100 * ((((eventsFor l X).filter (fun u => u.success)).length : ℕ) : ℚ) /
          (((eventsFor l X).length : ℕ) : ℚ)) := by
  have hnil : eventsFor l X ≠ [] := List.length_pos.mp h
  have hne : l ≠ [] := by
    rintro rfl
    exact hnil rfl
  have hX : X ∈ toolNamesInOrder l := (eventsFor_ne_nil_iff l X).mp hnil
  refine ⟨finalizeStat (accOf l X),
    (mem_getAnalytics_toolStats l hne _).mpr ⟨X, hX, rfl⟩, rfl, rfl, ?_⟩
  show (if 0 < (eventsFor l X).length then
      jsRoundDiv ((((eventsFor l X).filter (fun u => u.success)).length : ℤ) * 100)
        ((eventsFor l X).length : ℤ)
    else 0) = _
  rw [if_pos h, jsRoundDiv_eq_roundHalfUp _ _ (by exact_mod_cast h)]
  congr 1
  push_cast
  ring

/-- C6, witness: three events for one tool, two successful. -/
def c6Events : List ToolUsage :=
  [ exEvent 0 "word-counter" "text" 0 none true
  , exEvent 1 "word-counter" "text" 1 none true
  , exEvent 2 "word-counter" "text" 2 none false ]

theorem C6_usage_and_successRate_witness :
    0 < (eventsFor c6Events "word-counter").length ∧
    ∃ s ∈ (getAnalytics c6Events).toolStats, s.name = "word-counter" ∧
      s.usageCount = (eventsFor c6Events "word-counter").length ∧
      s.successRate =
        roundHalfUp
          (100 * ((((eventsFor c6Events "word-counter").filter
              (fun u => u.success)).length : ℕ) : ℚ) /
            (((eventsFor c6Events "word-counter").length : ℕ) : ℚ)) :=
  ⟨by decide, C6_usage_and_successRate c6Events "word-counter" (by decide)⟩

/-- C5: the tool statistics come out sorted by usage count descending,
with ties kept in first-occurrence order (the filter at any fixed count is
unchanged from the pre-sort, first-occurrence-ordered list), as a
permutation of the per-tool stats, and `mostPopular` / `popularUsage` are
the name and count of the head entry. -/
theorem C5_sorted_mostPopular (l : List ToolUsage) (h : l ≠ []) :
    List.Perm (getAnalytics l).toolStats (preToolStats l)
    ∧ ((getAnalytics l).toolStats).Pairwise (fun a b => b.usageCount ≤ a.usageCount)
    ∧ (∀ c : Nat, ((getAnalytics l).toolStats).filter (fun s => s.usageCount == c)
        = (preToolStats l).filter (fun s => s.usageCount == c))
    ∧ (∃ s rest, (getAnalytics l).toolStats = s :: rest ∧
        (getAnalytics l).mostPopular = s.name ∧
        (getAnalytics l).popularUsage = s.usageCount) := by
  refine ⟨?_, ?_, ?_, getAnalytics_head l h⟩
  · rw [getAnalytics_toolStats l h]
    exact sortDescBy_perm _ _
  · rw [getAnalytics_toolStats l h]
    exact sortDescBy_pairwise _ _
  · intro c
    rw [getAnalytics_toolStats l h]
    exact sortDescBy_filter_key _ _ _

theorem C5_sorted_mostPopular_witness :
    c1Events ≠ [] ∧
    (List.Perm (getAnalytics c1Events).toolStats (preToolStats c1Events)
    ∧ ((getAnalytics c1Events).toolStats).Pairwise (fun a b => b.usageCount ≤ a.usageCount)
    ∧ (∀ c : Nat, ((getAnalytics c1Events).toolStats).filter (fun s => s.usageCount == c)
        = (preToolStats c1Events).filter (fun s => s.usageCount == c))
    ∧ (∃ s rest, (getAnalytics c1Events).toolStats = s :: rest ∧
        (getAnalytics c1Events).mostPopular = s.name ∧
        (getAnalytics c1Events).popularUsage = s.usageCount)) :=
  ⟨by decide, C5_sorted_mostPopular c1Events (by decide)⟩

/-- C7: analytics of the empty collection is the zero state. -/
theorem C7_empty_zero_state :
    getAnalytics [] =
      { totalUsage := 0, mostPopular := "No data", popularUsage := 0
        successRate := "0%", toolStats := [] } := rfl

/-! ## Claim theorems: tool-usage listing -/

/-- C4, amended: for a supplied filter object whose string fields are not
the empty string, `getToolUsage` returns exactly the records matching the
conjunction of the supplied filters (as a multiset) in timestamp-descending
order. -/
theorem C4_filter_conjunction_sorted (l : List ToolUsage) (fs : UsageFilters)
    (ht : fs.toolName ≠ some "") (hc : fs.category ≠ some "") :
    List.Perm (getToolUsage l (some fs)) (l.filter (matchesSpec fs))
    ∧ (getToolUsage l (some fs)).Pairwise (fun a b => b.timestamp ≤ a.timestamp) := by
  have hred : getToolUsage l (some fs)
      = sortDescBy (fun u => u.timestamp) (applyFilters fs l) := rfl
  rw [hred, applyFilters_eq_filter fs l ht hc]
  exact ⟨sortDescBy_perm _ _, sortDescBy_pairwise _ _⟩

/-- One event and one filter that C4 as literally stated trips over: the
filter supplies `toolName = ""`, which the code ignores. -/
def c4Event : ToolUsage := exEvent 0 "pdf-to-word" "pdf" 5 none true

def c4Filters : UsageFilters :=
  { toolName := some "", category := none, dateFrom := none, dateTo := none }

/-- C4, counterexample: with a supplied empty-string `toolName` filter the
code returns the event unchanged although it does not satisfy the
conjunction of the supplied filters (no event has tool name `""`). -/
theorem C4_counterexample :
    getToolUsage [c4Event] (some c4Filters) = [c4Event]
    ∧ [c4Event].filter (matchesSpec c4Filters) = []
    ∧ ([c4Event] : List ToolUsage) ≠ [] := by
  refine ⟨by decide, by decide, by decide⟩

theorem C4_filter_conjunction_sorted_witness :
    (some "pdf-to-word" : Option String) ≠ some "" ∧ (none : Option String) ≠ some "" ∧
    (List.Perm
        (getToolUsage [c4Event]
          (some { toolName := some "pdf-to-word", category := none
                  dateFrom := none, dateTo := none }))
        ([c4Event].filter (matchesSpec
          { toolName := some "pdf-to-word", category := none
            dateFrom := none, dateTo := none }))
    ∧ (getToolUsage [c4Event]
          (some { toolName := some "pdf-to-word", category := none
                  dateFrom := none, dateTo := none })).Pairwise
        (fun a b => b.timestamp ≤ a.timestamp)) :=
  ⟨by decide, by decide,
    C4_filter_conjunction_sorted [c4Event]
      { toolName := some "pdf-to-word", category := none, dateFrom := none, dateTo := none }
      (by decide) (by decide)⟩

/-- C10: an empty-string `toolName` or `category` filter behaves exactly as
an absent one (and consequently no filter can select only records whose own
tool name or category is the empty string). -/
theorem C10_empty_string_filter_no_constraint (l : List ToolUsage) (fs : UsageFilters) :
    getToolUsage l (some { fs with toolName := some "" }) =
      getToolUsage l (some { fs with toolName := none })
    ∧ getToolUsage l (some { fs with category := some "" }) =
      getToolUsage l (some { fs with category := none }) :=
  getToolUsage_empty_string_like_absent l fs

/-! ## Claim theorems: ad slots -/

/-- C9: `getActiveAdSlots page` returns exactly the stored slots whose
`page` matches and whose `isActive` flag is set. -/
theorem C9_active_slots_exact (slots : List AdSlot) (page : String) (s : AdSlot) :
    s ∈ getActiveAdSlots slots page ↔
      s ∈ slots ∧ s.page = page ∧ s.isActive = true := by
  simp [getActiveAdSlots, List.mem_filter, and_assoc]

/-! ## Store lemmas for the user claims -/

theorem mem_mapSet (m : UserMap) (k : Nat) (v : User) (e : Nat × User)
    (he : e ∈ mapSet m k v) : e.snd = v ∨ e ∈ m := by
  unfold mapSet at he
  split at he
  · obtain ⟨x, hx, hxe⟩ := List.mem_map.mp he
    by_cases hk : (x.fst == k) = true
    · left
      rw [← hxe]
      simp [hk]
    · right
      rw [← hxe]
      simp only [hk, if_false]
      exact hx
  · rcases List.mem_append.mp he with h | h
    · right
      exact h
    · left
      simp only [List.mem_singleton] at h
      rw [h]

theorem mapGet_mem (m : UserMap) (k : Nat) (u : User) (h : mapGet m k = some u) :
    ∃ e ∈ m, e.snd = u := by
  unfold mapGet at h
  cases hf : m.find? (fun e => e.fst == k) with
  | none => rw [hf] at h; cases h
  | some e =>
      rw [hf] at h
      exact ⟨e, List.mem_of_find?_eq_some hf, by simpa using h⟩

theorem getUserByEmail_eq_none (m : UserMap) (em : String)
    (h : ∀ e ∈ m, e.snd.email ≠ em) : getUserByEmail m em = none := by
  unfold getUserByEmail
  rw [List.find?_eq_none]
  intro u hu
  obtain ⟨e, he, rfl⟩ := List.mem_map.mp hu
  simpa using h e he

theorem find_email_map_replace (m : UserMap) (k : Nat) (v : User)
    (h : ∀ e ∈ m, e.snd.email ≠ v.email) (hany : m.any (fun e => e.fst == k) = true) :
    ((m.map (fun e => if e.fst == k then (k, v) else e)).map (fun e => e.snd)).find?
        (fun u => u.email == v.email) = some v := by
  induction m with
  | nil => cases hany
  | cons e rest ih =>
      simp only [List.map_cons]
      by_cases hk : (e.fst == k) = true
      · simp [hk, List.find?]
      · have hred : (if (e.fst == k) = true then (k, v) else e) = e := by simp [hk]
        have hne : (e.snd.email == v.email) = false := by
          simpa using h e (List.mem_cons_self e rest)
        have hany' : rest.any (fun e => e.fst == k) = true := by
          simpa [hk] using hany
        rw [hred]
        simp only [List.map_cons, List.find?, hne]
        exact ih (fun x hx => h x (List.mem_cons_of_mem e hx)) hany'

theorem find_email_append (m : UserMap) (k : Nat) (v : User)
    (h : ∀ e ∈ m, e.snd.email ≠ v.email) :
    (((m ++ [(k, v)]).map (fun e => e.snd)).find? (fun u => u.email == v.email))
      = some v := by
  induction m with
  | nil => simp [List.find?]
  | cons e rest ih =>
      have hne : (e.snd.email == v.email) = false := by
        simpa using h e (List.mem_cons_self e rest)
      simp only [List.cons_append, List.map_cons, List.find?, hne]
      exact ih (fun x hx => h x (List.mem_cons_of_mem e hx))

theorem getUserByEmail_create (st : StoreState) (input : InsertUser)
    (h : ∀ e ∈ st.users, e.snd.email ≠ input.email) :
    getUserByEmail (createUser st input).fst.users input.email
      = some (createUser st input).snd := by
  show getUserByEmail (mapSet st.users st.fresh (createUser st input).snd) input.email
    = some (createUser st input).snd
  have hemail : (createUser st input).snd.email = input.email := rfl
  unfold getUserByEmail mapSet
  rw [← hemail]
  split
  · exact find_email_map_replace st.users st.fresh _ (by rw [hemail]; exact h) (by assumption)
  · exact find_email_append st.users st.fresh _ (by rw [hemail]; exact h)

/-! ## Claim theorems: users -/

/-- The user already stored in the duplicate-email scenarios. -/
def c2User : User :=
  { id := 0, username := "alice", email := "a@x.com"
    password := bcryptHash "pw1" 0, role := "user", createdAt := 0, updatedAt := 0 }

/-- A store already holding `c2User`. -/
def c2State : StoreState := { users := [(0, c2User)], fresh := 1 }

/-- A second registration payload reusing the email of `c2User`. -/
def c2Insert : InsertUser :=
  { username := "bob", email := "a@x.com", password := "pw2", role := none }

/-- C2, counterexample: `MemStorage.createUser` itself never fails: called
directly with an email that is already stored it succeeds and the store then
holds two users with that email (the uniqueness check lives only in the
register route, and only for email). -/
theorem C2_counterexample :
    (getUserByEmail c2State.users "a@x.com").isSome = true
    ∧ (((createUser c2State c2Insert).fst.users.map (fun e => e.snd)).filter
        (fun u => u.email == "a@x.com")).length = 2 :=
  ⟨by decide, by decide⟩

/-- C2, amended: the duplicate-email rejection is made by the register
route, which returns the `DuplicateKey` outcome and leaves the store — and
hence the first stored record — unchanged. -/
theorem C2_amended_register_duplicate (st : StoreState)
    (username email password : String)
    (h : ∃ u, getUserByEmail st.users email = some u) :
    registerRoute st username email password = (st, RegisterResult.duplicate) := by
  obtain ⟨u, hu⟩ := h
  unfold registerRoute
  rw [hu]

theorem C2_amended_register_duplicate_witness :
    (∃ u, getUserByEmail c2State.users "a@x.com" = some u) ∧
    registerRoute c2State "bob" "a@x.com" "pw2" = (c2State, RegisterResult.duplicate) :=
  ⟨⟨c2User, by decide⟩,
    C2_amended_register_duplicate c2State "bob" "a@x.com" "pw2" ⟨c2User, by decide⟩⟩

/-- The creation payload used in the password scenarios. -/
def c3Insert : InsertUser :=
  { username := "alice", email := "a@x.com", password := "pw1", role := none }

/-- A generic update that smuggles a raw password string in. -/
def c3Update : UserUpdates :=
  { id := none, username := none, email := none
    password := some (.plain "injected"), role := none
    createdAt := none, updatedAt := none }

/-- C3, counterexample: `updateUser` spreads a caller-supplied password
over the record verbatim, so a raw (plaintext) value is stored as-is. -/
theorem C3_counterexample :
    ((mapGet (runOps { users := [], fresh := 0 }
        [UserOp.create c3Insert, UserOp.update 0 c3Update]).users 0).map
      (fun u => u.password)) = some (StoredPassword.plain "injected") := by
  decide

/-- Whether an operation avoids the password field of the generic update
(the update schema of the profile route admits only username and email, so every
route-issued update satisfies this). -/
def opNoPasswordWrite : UserOp → Prop
  | .create _ => True
  | .update _ up => up.password = none

/-- C3, amended: as long as no generic update supplies a password field,
every stored password stays a bcrypt digest after any sequence of
`createUser` / `updateUser` calls. -/
theorem C3_amended_no_plaintext (st : StoreState) (ops : List UserOp)
    (hst : ∀ e ∈ st.users, isHashedPw e.snd.password = true)
    (hops : ∀ op ∈ ops, opNoPasswordWrite op) :
    ∀ e ∈ (runOps st ops).users, isHashedPw e.snd.password = true := by
  induction ops generalizing st with
  | nil => exact hst
  | cons op rest ih =>
      have hop : opNoPasswordWrite op := hops op (List.mem_cons_self op rest)
      have hstep : ∀ e ∈ (runOp st op).users, isHashedPw e.snd.password = true := by
        cases op with
        | create input =>
            intro e he
            have hm : e.snd = (createUser st input).snd ∨ e ∈ st.users :=
              mem_mapSet st.users st.fresh _ e he
            rcases hm with hv | hmem
            · rw [hv]
              rfl
            · exact hst e hmem
        | update k up =>
            intro e he
            cases hg : mapGet st.users k with
            | none =>
                rw [runOp, updateUser, hg] at he
                exact hst e he
            | some user =>
                rw [runOp, updateUser, hg] at he
                have hm := mem_mapSet st.users k _ e he
                rcases hm with hv | hmem
                · rw [hv]
                  have hpw : up.password = none := hop
                  simp only [hpw, Option.getD_none]
                  obtain ⟨x, hx, hxu⟩ := mapGet_mem st.users k user hg
                  rw [← hxu]
                  exact hst x hx
                · exact hst e hmem
      exact ih (runOp st op) hstep (fun o ho => hops o (List.mem_cons_of_mem op ho))

theorem C3_amended_no_plaintext_witness :
    (∀ e ∈ ({ users := [], fresh := 0 } : StoreState).users,
        isHashedPw e.snd.password = true) ∧
    (∀ op ∈ [UserOp.create c3Insert], opNoPasswordWrite op) ∧
    (∀ e ∈ (runOps { users := [], fresh := 0 } [UserOp.create c3Insert]).users,
        isHashedPw e.snd.password = true) :=
  ⟨by simp, by
      intro op ho
      simp only [List.mem_singleton] at ho
      rw [ho]
      trivial,
    C3_amended_no_plaintext { users := [], fresh := 0 } [UserOp.create c3Insert]
      (by simp)
      (by
        intro op ho
        simp only [List.mem_singleton] at ho
        rw [ho]
        trivial)⟩

theorem authenticateUser_getUserByEmail_some (st : StoreState) (email password : String)
    (u : User) (hu : getUserByEmail st.users email = some u) :
    authenticateUser st email password =
      if bcryptCompare password u.password then some u else none := by
  unfold authenticateUser
  rw [hu]

/-- The first and second registration payloads of the duplicate-email
authentication scenario; both use the email `e@x.com`. -/
def c8Insert1 : InsertUser :=
  { username := "u1", email := "e@x.com", password := "pa", role := none }

def c8Insert2 : InsertUser :=
  { username := "u2", email := "e@x.com", password := "pb", role := none }

def c8State1 : StoreState := (createUser { users := [], fresh := 0 } c8Insert1).fst

def c8State2 : StoreState := (createUser c8State1 c8Insert2).fst

/-- C8, counterexample: after two `createUser` calls sharing an email (which
`createUser` permits, see the C2 analysis), the second user was created with
email `e@x.com` and plaintext `pb`, yet authentication with exactly those
credentials fails: the lookup finds the first user and compares against the
digest of the first user. -/
theorem C8_counterexample :
    (createUser c8State1 c8Insert2).snd.email = "e@x.com"
    ∧ c8Insert2.password = "pb"
    ∧ authenticateUser c8State2 "e@x.com" "pb" = none :=
  ⟨by decide, by decide, by decide⟩

/-- C8, amended: provided no already-stored user carries the same email
(the uniqueness invariant the register route maintains), authentication
with the email and exactly the plaintext used at creation returns the
created user; any other plaintext, or an email held by no user, yields the
not-authenticated signal. -/
theorem C8_amended_authenticate (st : StoreState) (input : InsertUser)
    (hfresh : ∀ e ∈ st.users, e.snd.email ≠ input.email) :
    authenticateUser (createUser st input).fst input.email input.password
        = some (createUser st input).snd
    ∧ (∀ q, q ≠ input.password →
        authenticateUser (createUser st input).fst input.email q = none)
    ∧ (∀ em q, (∀ e ∈ (createUser st input).fst.users, e.snd.email ≠ em) →
        authenticateUser (createUser st input).fst em q = none) := by
  have hget := getUserByEmail_create st input hfresh
  refine ⟨?_, ?_, ?_⟩
  · rw [authenticateUser_getUserByEmail_some _ _ _ _ hget]
    have hcmp : bcryptCompare input.password (createUser st input).snd.password = true := by
      show (input.password == input.password) = true
      simp
    rw [if_pos hcmp]
  · intro q hq
    rw [authenticateUser_getUserByEmail_some _ _ _ _ hget]
    have hcmp : ¬(bcryptCompare q (createUser st input).snd.password = true) := by
      show ¬((q == input.password) = true)
      simpa using hq
    rw [if_neg hcmp]
  · intro em q hem
    unfold authenticateUser
    rw [getUserByEmail_eq_none _ _ hem]

theorem C8_amended_authenticate_witness :
    (∀ e ∈ ({ users := [], fresh := 0 } : StoreState).users,
        e.snd.email ≠ c8Insert1.email) ∧
    (authenticateUser (createUser { users := [], fresh := 0 } c8Insert1).fst
        c8Insert1.email c8Insert1.password
      = some (createUser { users := [], fresh := 0 } c8Insert1).snd
    ∧ (∀ q, q ≠ c8Insert1.password →
        authenticateUser (createUser { users := [], fresh := 0 } c8Insert1).fst
          c8Insert1.email q = none)
    ∧ (∀ em q, (∀ e ∈ (createUser { users := [], fresh := 0 } c8Insert1).fst.users,
          e.snd.email ≠ em) →
        authenticateUser (createUser { users := [], fresh := 0 } c8Insert1).fst
          em q = none)) :=
  ⟨by simp, C8_amended_authenticate { users := [], fresh := 0 } c8Insert1 (by simp)⟩
